import Mathlib

/-!
Verification of the btyd model-fitting and prediction engine.

The repository ships only its package init module and its test suite; the
fitter implementations themselves (BetaGeoFitter, ParetoNBDFitter,
ModifiedBetaGeoFitter, BaseFitter persistence) are declared and exercised by
`src/tests/test_estimation.py` but their bodies are not present under `src/`.
Following the spec (sections 3, 4.2, 4.3, 6, 7), the definitions below model
those missing functions over the real numbers; machine floats are idealised
as elements of the real field.  Where the repository's own tests pin down a
behavioural choice the spec leaves open (for example, whether the aggregate
negative log-likelihood is a weighted sum or a weighted mean), the tests are
followed, since they are repository code.
-/

open Real

set_option maxHeartbeats 1000000

/-- Modelled from the spec, section 3 (Summary Observation): one row per
subject with frequency, recency, total observation length `T` and a positive
weight. -/
structure Subject where
  frequency : ℝ
  recency : ℝ
  T : ℝ
  weight : ℝ

/-- Modelled from the spec, section 3 (Parameter Vector): the BG/NBD family
parameter vector (r, alpha, a, b), also used by the Modified BG/NBD variant. -/
structure BGParams where
  r : ℝ
  alpha : ℝ
  a : ℝ
  b : ℝ

/-- Modelled from the spec, section 3 (Parameter Vector): the Pareto/NBD
parameter vector (r, alpha, s, beta). -/
structure ParetoParams where
  r : ℝ
  alpha : ℝ
  s : ℝ
  beta : ℝ

/-- The log of the Gamma function, `scipy.special.gammaln` idealised over ℝ. -/
noncomputable def gammaln (x : ℝ) : ℝ :=
  Real.log (Real.Gamma x)

/-- Modelled from the spec, section 4.1 (`log_sum_exp`): two-argument
log-sum-exp, `numpy.logaddexp` idealised over ℝ. -/
noncomputable def logaddexp (x y : ℝ) : ℝ :=
  Real.log (Real.exp x + Real.exp y)

/-- The Gauss hypergeometric function 2F1 as its defining series,
`scipy.special.hyp2f1` idealised over ℝ (spec section 4.1 requires a guarded
series evaluation; the ideal value is the limit of that series). -/
noncomputable def hyp2f1 (a b c z : ℝ) : ℝ :=
  tsum (fun n : ℕ =>
    Real.Gamma (a + n) / Real.Gamma a * (Real.Gamma (b + n) / Real.Gamma b) /
      (Real.Gamma (c + n) / Real.Gamma c) * z ^ n / (n.factorial : ℝ))

/-- Total weight of a batch of subjects. -/
noncomputable def totalWeight (data : List Subject) : ℝ :=
  (data.map Subject.weight).sum

/-- Modelled from the spec, section 4.2: the per-subject BG/NBD
log-likelihood contribution, written exactly as the missing
`BetaGeoFitter._negative_log_likelihood` assembles it: terms
`A_1 = gammaln(r+x) - gammaln(r) + r log(alpha)`,
`A_2 = gammaln(a+b) + gammaln(b+x) - gammaln(b) - gammaln(a+b+x)`,
`A_3 = -(r+x) log(alpha+T)`,
`A_4 = log(a) - log(b + max(x,1) - 1) - (r+x) log(t_x+alpha)`,
combined as `A_1 + A_2 + log(exp A_3 + [x > 0] exp A_4)`. -/
noncomputable def BetaGeoFitter.log_likelihood_term (p : BGParams) (x t_x T : ℝ) : ℝ :=
  (gammaln (p.r + x) - gammaln p.r + p.r * Real.log p.alpha)
    + (gammaln (p.a + p.b) + gammaln (p.b + x) - gammaln p.b - gammaln (p.a + p.b + x))
    + (if 0 < x then
        logaddexp (-(p.r + x) * Real.log (p.alpha + T))
          (Real.log p.a - Real.log (p.b + max x 1 - 1) - (p.r + x) * Real.log (t_x + p.alpha))
      else -(p.r + x) * Real.log (p.alpha + T))

/-- Modelled from the spec, section 4.2 (`negative_log_likelihood`), for the
BG/NBD model.  The spec calls the aggregate a weighted sum, but the
repository's own test
(`TestBetaGeoFitter.test_sum_of_scalar_inputs_to_negative_log_likelihood_is_equal_to_array`)
asserts `(nll(subject 1) + nll(subject 2)) / 2 == nll(both subjects)` at unit
weights, so the missing code divides the weighted sum of per-subject
contributions by the total weight (a weighted mean) before adding the L2
penalty `penalizer_coef * sum(params^2)`; that is what this definition does. -/
noncomputable def BetaGeoFitter.negative_log_likelihood
    (p : BGParams) (data : List Subject) (penalizer_coef : ℝ) : ℝ :=
  -(data.map (fun u => u.weight * BetaGeoFitter.log_likelihood_term p u.frequency u.recency u.T)).sum
      / totalWeight data
    + penalizer_coef * (p.r ^ 2 + p.alpha ^ 2 + p.a ^ 2 + p.b ^ 2)

/-- Modelled from the spec, section 4.2: the `A_0` factor of the Pareto/NBD
likelihood in log space, as in the missing `ParetoNBDFitter._log_A_0`
(the spec's guarded hypergeometric evaluator, section 4.1, idealised by
`hyp2f1`); the sign-weighted log-sum-exp of the two hypergeometric terms is
written as the log of their difference. -/
noncomputable def ParetoNBDFitter.log_A_0 (p : ParetoParams) (freq recency age : ℝ) : ℝ :=
  let max_of_alpha_beta := max p.alpha p.beta
  let min_of_alpha_beta := min p.alpha p.beta
  let t := if p.alpha < p.beta then p.r + freq else p.s + 1
  let abs_alpha_beta := max_of_alpha_beta - min_of_alpha_beta
  let rsf := p.r + p.s + freq
  let p_1 := hyp2f1 rsf t (rsf + 1) (abs_alpha_beta / (max_of_alpha_beta + recency))
  let q_1 := max_of_alpha_beta + recency
  let p_2 := hyp2f1 rsf t (rsf + 1) (abs_alpha_beta / (max_of_alpha_beta + age))
  let q_2 := max_of_alpha_beta + age
  Real.log (p_1 * q_2 ^ rsf - p_2 * q_1 ^ rsf) - rsf * Real.log (q_1 * q_2)

/-- Modelled from the spec, section 4.2: the per-subject Pareto/NBD
log-likelihood contribution
`A_1 + logaddexp(-(r+x) log(alpha+T) - s log(beta+T), log(s/(r+s+x)) + log A_0)`
with `A_1 = gammaln(r+x) - gammaln(r) + r log(alpha) + s log(beta)`. -/
noncomputable def ParetoNBDFitter.log_likelihood_term (p : ParetoParams) (x t_x T : ℝ) : ℝ :=
  (gammaln (p.r + x) - gammaln p.r + p.r * Real.log p.alpha + p.s * Real.log p.beta)
    + logaddexp (-(p.r + x) * Real.log (p.alpha + T) - p.s * Real.log (p.beta + T))
        (Real.log (p.s / (p.r + p.s + x)) + ParetoNBDFitter.log_A_0 p x t_x T)

/-- Modelled from the spec, section 4.2 (`negative_log_likelihood`), for the
Pareto/NBD model: here the aggregate is the plain weighted sum of per-subject
contributions (the repository's test
`TestParetoNBDFitter.test_sum_of_scalar_inputs_to_negative_log_likelihood_is_equal_to_array`
asserts plain additivity, with no division by the total weight), plus the L2
penalty `penalizer_coef * sum(params^2)`. -/
noncomputable def ParetoNBDFitter.negative_log_likelihood
    (p : ParetoParams) (data : List Subject) (penalizer_coef : ℝ) : ℝ :=
  -(data.map (fun u => u.weight * ParetoNBDFitter.log_likelihood_term p u.frequency u.recency u.T)).sum
    + penalizer_coef * (p.r ^ 2 + p.alpha ^ 2 + p.s ^ 2 + p.beta ^ 2)

lemma Real_Gamma_two : Real.Gamma 2 = 1 := by
  norm_num [Nat.factorial]

lemma Real_Gamma_three : Real.Gamma 3 = 2 := by
  norm_num [Nat.factorial]

lemma Real_Gamma_four : Real.Gamma 4 = 6 := by
  norm_num [Nat.factorial]

lemma Real_Gamma_five : Real.Gamma 5 = 24 := by
  norm_num [Nat.factorial]

lemma bg_term_eval_1 :
    BetaGeoFitter.log_likelihood_term ⟨1, 1, 1, 1⟩ 1 2 5 = Real.log (5 / 72) := by
  have h36 : -(((1:ℝ)) + 1) * Real.log (1 + 5) = Real.log (1 / 36) := by
    rw [show ((1:ℝ) + 5) = 6 by norm_num,
      show (1:ℝ) / 36 = 6⁻¹ ^ (2:ℕ) by norm_num, Real.log_pow, Real.log_inv]
    push_cast
    ring
  have h9 : Real.log 1 - Real.log ((1:ℝ) + max (1:ℝ) 1 - 1) - ((1:ℝ) + 1) * Real.log (2 + 1)
      = Real.log (1 / 9) := by
    rw [max_self, show ((1:ℝ) + 1 - 1) = 1 by norm_num, show ((2:ℝ) + 1) = 3 by norm_num,
      show (1:ℝ) / 9 = 3⁻¹ ^ (2:ℕ) by norm_num, Real.log_pow, Real.log_inv, Real.log_one]
    push_cast
    ring
  simp only [BetaGeoFitter.log_likelihood_term, gammaln, logaddexp,
    if_pos (show (0:ℝ) < 1 by norm_num)]
  rw [h36, h9, Real.exp_log (by norm_num : (0:ℝ) < 1 / 36),
    Real.exp_log (by norm_num : (0:ℝ) < 1 / 9),
    show ((1:ℝ)/36 + 1/9) = 5/36 by norm_num,
    show ((1:ℝ) + 1 + 1) = 3 by norm_num,
    show ((1:ℝ) + 1) = 2 by norm_num,
    Real.Gamma_one, Real_Gamma_two, Real_Gamma_three]
  simp only [Real.log_one]
  have hcomb : Real.log (5 / 36) - Real.log 2 = Real.log ((5:ℝ) / 72) := by
    rw [← Real.log_div (by norm_num) (by norm_num : (2:ℝ) ≠ 0)]
    norm_num
  linarith [hcomb]

lemma bg_term_eval_2 :
    BetaGeoFitter.log_likelihood_term ⟨1, 1, 1, 1⟩ 3 2 6 = Real.log (1322 / 194481) := by
  have h2401 : -(((1:ℝ)) + 3) * Real.log (1 + 6) = Real.log (1 / 2401) := by
    rw [show ((1:ℝ) + 6) = 7 by norm_num,
      show (1:ℝ) / 2401 = 7⁻¹ ^ (4:ℕ) by norm_num, Real.log_pow, Real.log_inv]
    push_cast
    ring
  have h243 : Real.log 1 - Real.log ((1:ℝ) + max (3:ℝ) 1 - 1) - ((1:ℝ) + 3) * Real.log (2 + 1)
      = Real.log (1 / 243) := by
    rw [max_eq_left (by norm_num : (1:ℝ) ≤ 3),
      show ((1:ℝ) + 3 - 1) = 3 by norm_num, show ((2:ℝ) + 1) = 3 by norm_num,
      show (1:ℝ) / 243 = 3⁻¹ ^ (5:ℕ) by norm_num, Real.log_pow, Real.log_inv, Real.log_one]
    push_cast
    ring
  simp only [BetaGeoFitter.log_likelihood_term, gammaln, logaddexp,
    if_pos (show (0:ℝ) < 3 by norm_num)]
  rw [h2401, h243, Real.exp_log (by norm_num : (0:ℝ) < 1 / 2401),
    Real.exp_log (by norm_num : (0:ℝ) < 1 / 243),
    show ((1:ℝ)/2401 + 1/243) = 2644/583443 by norm_num,
    show ((1:ℝ) + 1 + 3) = 5 by norm_num,
    show ((1:ℝ) + 3) = 4 by norm_num,
    show ((1:ℝ) + 1) = 2 by norm_num,
    Real.Gamma_one, Real_Gamma_two, Real_Gamma_four, Real_Gamma_five]
  simp only [Real.log_one]
  have hcomb : Real.log 6 + Real.log 6 - Real.log 24 + Real.log ((2644:ℝ) / 583443)
      = Real.log ((1322:ℝ) / 194481) := by
    rw [← Real.log_mul (by norm_num : (6:ℝ) ≠ 0) (by norm_num : (6:ℝ) ≠ 0),
      ← Real.log_div (by norm_num : (6:ℝ) * 6 ≠ 0) (by norm_num : (24:ℝ) ≠ 0),
      ← Real.log_mul (by norm_num : (6:ℝ) * 6 / 24 ≠ 0) (by norm_num : (2644:ℝ) / 583443 ≠ 0)]
    norm_num
  linarith [hcomb]

/-- Claim C1, counterexample: for the BG/NBD model the aggregate negative
log-likelihood is a weighted mean, not a sum, so at the concrete partition
used by the repository's own test (subjects (x, t_x, T, w) = (1, 2, 5, 1) and
(3, 2, 6, 1), parameters (1, 1, 1, 1), zero penalizer) the sum of the two
batch values differs from the value on the concatenated batch. -/
theorem betaGeo_nll_not_additive :
    BetaGeoFitter.negative_log_likelihood ⟨1, 1, 1, 1⟩ [⟨1, 2, 5, 1⟩] 0 +
        BetaGeoFitter.negative_log_likelihood ⟨1, 1, 1, 1⟩ [⟨3, 2, 6, 1⟩] 0 ≠
      BetaGeoFitter.negative_log_likelihood ⟨1, 1, 1, 1⟩ ([⟨1, 2, 5, 1⟩] ++ [⟨3, 2, 6, 1⟩]) 0 := by
  have hsum : Real.log ((5:ℝ) / 72) + Real.log ((1322:ℝ) / 194481) < 0 := by
    rw [← Real.log_mul (by norm_num) (by norm_num)]
    exact Real.log_neg (by norm_num) (by norm_num)
  intro h
  simp only [BetaGeoFitter.negative_log_likelihood, totalWeight, List.cons_append,
    List.nil_append, List.map_cons, List.map_nil, List.sum_cons, List.sum_nil,
    bg_term_eval_1, bg_term_eval_2, one_mul, add_zero, zero_mul, mul_zero] at h
  norm_num at h
  linarith [hsum, h]

/-- Claim C1, amended: with zero penalizer coefficient the Pareto/NBD
negative log-likelihood is additive across weighted batches, while the
BG/NBD negative log-likelihood is a weighted mean of per-subject
contributions, so it combines through the batch total weights:
`W1 * NLL(batch1) + W2 * NLL(batch2) = (W1 + W2) * NLL(combined)`. -/
theorem nll_batch_aggregation :
    (∀ (p : ParetoParams) (d1 d2 : List Subject),
        ParetoNBDFitter.negative_log_likelihood p (d1 ++ d2) 0 =
          ParetoNBDFitter.negative_log_likelihood p d1 0 +
            ParetoNBDFitter.negative_log_likelihood p d2 0) ∧
    (∀ (p : BGParams) (d1 d2 : List Subject),
        0 < totalWeight d1 → 0 < totalWeight d2 →
        totalWeight d1 * BetaGeoFitter.negative_log_likelihood p d1 0 +
            totalWeight d2 * BetaGeoFitter.negative_log_likelihood p d2 0 =
          totalWeight (d1 ++ d2) * BetaGeoFitter.negative_log_likelihood p (d1 ++ d2) 0) := by
  constructor
  · intro p d1 d2
    simp only [ParetoNBDFitter.negative_log_likelihood, List.map_append, List.sum_append]
    ring
  · intro p d1 d2 h1 h2
    have h12 : totalWeight (d1 ++ d2) = totalWeight d1 + totalWeight d2 := by
      simp [totalWeight]
    have h1' : totalWeight d1 ≠ 0 := ne_of_gt h1
    have h2' : totalWeight d2 ≠ 0 := ne_of_gt h2
    have h12' : totalWeight d1 + totalWeight d2 ≠ 0 := by
      have : 0 < totalWeight d1 + totalWeight d2 := by linarith
      exact ne_of_gt this
    simp only [BetaGeoFitter.negative_log_likelihood, List.map_append, List.sum_append,
      zero_mul, add_zero, h12]
    field_simp
    ring

/-- Witness for the amended claim C1 at the test's concrete batches. -/
theorem nll_batch_aggregation_witness :
    0 < totalWeight [(⟨1, 2, 5, 1⟩ : Subject)] ∧
    totalWeight [(⟨1, 2, 5, 1⟩ : Subject)] *
          BetaGeoFitter.negative_log_likelihood ⟨1, 1, 1, 1⟩ [⟨1, 2, 5, 1⟩] 0 +
        totalWeight [(⟨3, 2, 6, 1⟩ : Subject)] *
          BetaGeoFitter.negative_log_likelihood ⟨1, 1, 1, 1⟩ [⟨3, 2, 6, 1⟩] 0 =
      totalWeight ([⟨1, 2, 5, 1⟩] ++ [⟨3, 2, 6, 1⟩]) *
        BetaGeoFitter.negative_log_likelihood ⟨1, 1, 1, 1⟩ ([⟨1, 2, 5, 1⟩] ++ [⟨3, 2, 6, 1⟩]) 0 :=
  ⟨by norm_num [totalWeight],
    nll_batch_aggregation.2 ⟨1, 1, 1, 1⟩ [⟨1, 2, 5, 1⟩] [⟨3, 2, 6, 1⟩]
      (by norm_num [totalWeight]) (by norm_num [totalWeight])⟩

/-- Modelled from the spec, section 4.2 (`conditional_probability_alive`),
for the BG/NBD model: `1` when `frequency == 0`, otherwise
`expit(-log_div)` with
`log_div = (r+x) log((alpha+T)/(alpha+recency)) + log(a/(b+max(x,1)-1))`;
`expit(-z) = 1/(1+exp z)`. -/
noncomputable def BetaGeoFitter.conditional_probability_alive
    (p : BGParams) (frequency recency T : ℝ) : ℝ :=
  if frequency = 0 then 1 else
    1 / (1 + Real.exp ((p.r + frequency) * Real.log ((p.alpha + T) / (p.alpha + recency)) +
      Real.log (p.a / (p.b + max frequency 1 - 1))))

/-- Modelled from the spec, section 4.2, for the Modified BG/NBD variant
(dropout opportunity at the end of the first period, so no special case at
zero repeat purchases):
`1 / (1 + (a/(b+x)) ((alpha+T)/(alpha+recency))^(r+x))`. -/
noncomputable def ModifiedBetaGeoFitter.conditional_probability_alive
    (p : BGParams) (frequency recency T : ℝ) : ℝ :=
  1 / (1 + p.a / (p.b + frequency) * ((p.alpha + T) / (p.alpha + recency)) ^ (p.r + frequency))

/-- Modelled from the spec, section 4.2, for the Pareto/NBD model:
`1 / (1 + (s/(r+s+x)) (alpha+T)^(r+x) (beta+T)^s A_0)` with
`A_0 = exp(log_A_0(params, x, t_x, T))`. -/
noncomputable def ParetoNBDFitter.conditional_probability_alive
    (p : ParetoParams) (frequency recency T : ℝ) : ℝ :=
  1 / (1 + p.s / (p.r + p.s + frequency) * (p.alpha + T) ^ (p.r + frequency) *
    (p.beta + T) ^ p.s * Real.exp (ParetoNBDFitter.log_A_0 p frequency recency T))

/-- Claim C3: for a subject with zero repeat purchases the BG/NBD conditional
probability of being alive is exactly 1, while the Modified BG/NBD variant
yields a value strictly below 1. -/
theorem conditional_probability_alive_no_repeat_purchases
    (pb pm : BGParams) (recency T : ℝ)
    (hma : 0 < pm.a) (hmb : 0 < pm.b) (hmalpha : 0 < pm.alpha)
    (hrec : 0 ≤ recency) (hT : 0 ≤ T) :
    BetaGeoFitter.conditional_probability_alive pb 0 recency T = 1 ∧
    ModifiedBetaGeoFitter.conditional_probability_alive pm 0 recency T < 1 := by
  constructor
  · simp [BetaGeoFitter.conditional_probability_alive]
  · unfold ModifiedBetaGeoFitter.conditional_probability_alive
    have hk : 0 < pm.a / (pm.b + 0) * ((pm.alpha + T) / (pm.alpha + recency)) ^ (pm.r + 0) := by
      apply mul_pos
      · exact div_pos hma (by linarith)
      · exact Real.rpow_pos_of_pos (div_pos (by linarith) (by linarith)) _
    rw [div_lt_one (by linarith)]
    linarith

/-- Witness for claim C3 at concrete parameters and inputs. -/
theorem conditional_probability_alive_no_repeat_purchases_witness :
    BetaGeoFitter.conditional_probability_alive ⟨1, 1, 1, 1⟩ 0 1 1 = 1 ∧
    ModifiedBetaGeoFitter.conditional_probability_alive ⟨1, 1, 1, 1⟩ 0 1 1 < 1 :=
  conditional_probability_alive_no_repeat_purchases ⟨1, 1, 1, 1⟩ ⟨1, 1, 1, 1⟩ 1 1
    (by norm_num) (by norm_num) (by norm_num) (by norm_num) (by norm_num)

/-- The Euler Beta function written through Gamma, `scipy.special.beta`
idealised over ℝ. -/
noncomputable def betaFn (x y : ℝ) : ℝ :=
  Real.Gamma x * Real.Gamma y / Real.Gamma (x + y)

/-- Modelled from the spec, section 4.2
(`probability_of_n_purchases_up_to_time`), for the BG/NBD model: the
Fader-Hardie closed form
`B(a, b+n)/B(a,b) * Gamma(r+n)/(Gamma(r) Gamma(n+1)) * (alpha/(alpha+t))^r * (t/(alpha+t))^n`
plus, for `n > 0`,
`B(a+1, b+n-1)/B(a,b) * (1 - (alpha/(alpha+t))^r * sum_{j<n} Gamma(r+j)/(Gamma(r) Gamma(j+1)) (t/(alpha+t))^j)`. -/
noncomputable def BetaGeoFitter.probability_of_n_purchases_up_to_time
    (p : BGParams) (t : ℝ) (n : ℕ) : ℝ :=
  betaFn p.a (p.b + n) / betaFn p.a p.b *
      (Real.Gamma (p.r + n) / Real.Gamma p.r / Real.Gamma ((n:ℝ) + 1)) *
      (p.alpha / (p.alpha + t)) ^ p.r * (t / (p.alpha + t)) ^ (n : ℝ)
    + (if 0 < n then
        betaFn (p.a + 1) (p.b + n - 1) / betaFn p.a p.b *
          (1 - (p.alpha / (p.alpha + t)) ^ p.r *
            ∑ j in Finset.range n,
              Real.Gamma (p.r + j) / Real.Gamma p.r / Real.Gamma ((j:ℝ) + 1) *
                (t / (p.alpha + t)) ^ (j : ℝ))
      else 0)

/-- Closed form of the BG/NBD purchase-count distribution on the
exactly-solvable parameter family r = a = b = 1. -/
lemma bg_pmf_unit (al t : ℝ) (hal : 0 < al) (ht : 0 < t) (n : ℕ) :
    BetaGeoFitter.probability_of_n_purchases_up_to_time ⟨1, al, 1, 1⟩ t n =
      (t / (al + t)) ^ n *
        (al / (al + t) / ((n:ℝ) + 1) +
          if 0 < n then 1 / ((n:ℝ) * ((n:ℝ) + 1)) else 0) := by
  have hs : (0:ℝ) < al + t := by linarith
  have hs' : al + t ≠ 0 := ne_of_gt hs
  have hal' : al ≠ 0 := ne_of_gt hal
  have hq1 : t / (al + t) ≠ 1 := by
    intro h
    have := (div_eq_iff hs').mp h
    rw [one_mul] at this
    linarith
  have e3 : ∀ m : ℕ, Real.Gamma (1 + (m:ℝ)) / Real.Gamma 1 / Real.Gamma ((m:ℝ) + 1) = 1 := by
    intro m
    have hmf : ((m.factorial : ℝ)) ≠ 0 := Nat.cast_ne_zero.mpr m.factorial_ne_zero
    rw [Real.Gamma_one, show (1:ℝ) + (m:ℝ) = (m:ℝ) + 1 by ring, Real.Gamma_nat_eq_factorial,
      div_one, div_self hmf]
  by_cases hn : 0 < n
  · obtain ⟨m, rfl⟩ : ∃ m, n = m + 1 := ⟨n - 1, (Nat.succ_pred_eq_of_pos hn).symm⟩
    have hmf : ((m.factorial : ℝ)) ≠ 0 := Nat.cast_ne_zero.mpr m.factorial_ne_zero
    have hm1f : (((m+1).factorial : ℝ)) ≠ 0 := Nat.cast_ne_zero.mpr (m+1).factorial_ne_zero
    have hm1 : ((m:ℝ) + 1) ≠ 0 := by positivity
    have hm2 : ((m:ℝ) + 2) ≠ 0 := by positivity
    have e0 : betaFn 1 1 = 1 := by
      unfold betaFn
      rw [Real.Gamma_one, show ((1:ℝ) + 1) = 2 by norm_num, Real_Gamma_two]
      norm_num
    have e1 : betaFn 1 (1 + ((m+1 : ℕ):ℝ)) = 1 / ((m:ℝ) + 2) := by
      unfold betaFn
      rw [Real.Gamma_one, one_mul,
        show (1:ℝ) + ((m+1 : ℕ):ℝ) = ((m+1 : ℕ):ℝ) + 1 by ring,
        Real.Gamma_nat_eq_factorial,
        show (1:ℝ) + (((m+1 : ℕ):ℝ) + 1) = ((m+2 : ℕ):ℝ) + 1 by push_cast; ring,
        Real.Gamma_nat_eq_factorial,
        show (m+2).factorial = (m+2) * (m+1).factorial from Nat.factorial_succ (m+1)]
      push_cast
      rw [div_eq_div_iff (by positivity) hm2]
      ring
    have e2 : betaFn (1 + 1) (1 + ((m+1 : ℕ):ℝ) - 1) = 1 / (((m:ℝ) + 1) * ((m:ℝ) + 2)) := by
      unfold betaFn
      rw [show (1:ℝ) + 1 = 2 by norm_num,
        show (1:ℝ) + ((m+1 : ℕ):ℝ) - 1 = (m:ℝ) + 1 by push_cast; ring,
        Real_Gamma_two, one_mul, Real.Gamma_nat_eq_factorial,
        show (2:ℝ) + ((m:ℝ) + 1) = ((m+2 : ℕ):ℝ) + 1 by push_cast; ring,
        Real.Gamma_nat_eq_factorial,
        show (m+2).factorial = (m+2) * ((m+1) * m.factorial) by
          rw [Nat.factorial_succ (m+1), Nat.factorial_succ m]]
      push_cast
      rw [div_eq_div_iff (by positivity) (by positivity)]
      ring
    have hpa' : al / (al + t) ≠ 0 := div_ne_zero hal' hs'
    have hrel : t / (al + t) - 1 = -(al / (al + t)) := by
      rw [div_sub_one hs', show t - (al + t) = -al by ring, neg_div]
    have hbr : 1 - al / (al + t) *
        (((t / (al + t)) ^ (m + 1) - 1) / (t / (al + t) - 1)) = (t / (al + t)) ^ (m + 1) := by
      rw [hrel, div_neg, mul_neg, sub_neg_eq_add, mul_comm (al / (al + t)),
        div_mul_cancel₀ _ hpa']
      ring
    simp only [BetaGeoFitter.probability_of_n_purchases_up_to_time, if_pos hn,
      Real.rpow_one, Real.rpow_natCast, e0, div_one, e3, one_mul, mul_one]
    rw [e1, e2, geom_sum_eq hq1, hbr]
    field_simp
    ring
  · have h0 : n = 0 := Nat.eq_zero_of_not_pos hn
    subst h0
    simp only [BetaGeoFitter.probability_of_n_purchases_up_to_time, if_neg hn]
    norm_num [betaFn, Real.Gamma_one, Real_Gamma_two, Real.rpow_one]

/-- Claim C4, counterexample: at the valid parameter vector
r = alpha = a = b = 1 and horizon t = 1000000, the truncated sum of
`probability_of_n_purchases_up_to_time` over n = 0..50 falls short of 1 by
more than the claimed 1e-2 tolerance (the mass has escaped past any fixed
truncation). -/
theorem pmf_truncation_counterexample :
    |(∑ n in Finset.range 51,
        BetaGeoFitter.probability_of_n_purchases_up_to_time ⟨1, 1, 1, 1⟩ 1000000 n) - 1|
      > 1 / 100 := by
  have hterm : ∀ n : ℕ,
      BetaGeoFitter.probability_of_n_purchases_up_to_time ⟨1, 1, 1, 1⟩ 1000000 n ≤
        (1:ℝ) / (1 + 1000000) / ((n:ℝ) + 1) +
          (if 0 < n then 1 / ((n:ℝ) * ((n:ℝ) + 1)) else 0) := by
    intro n
    rw [bg_pmf_unit 1 1000000 (by norm_num) (by norm_num) n]
    have hc : (0:ℝ) ≤ (1:ℝ) / (1 + 1000000) / ((n:ℝ) + 1) +
        (if 0 < n then 1 / ((n:ℝ) * ((n:ℝ) + 1)) else 0) := by
      have h1 : (0:ℝ) ≤ (1:ℝ) / (1 + 1000000) / ((n:ℝ) + 1) := by positivity
      have h2 : (0:ℝ) ≤ (if 0 < n then (1:ℝ) / ((n:ℝ) * ((n:ℝ) + 1)) else 0) := by
        rcases Nat.eq_zero_or_pos n with h | h
        · simp [h]
        · rw [if_pos h]
          have : (0:ℝ) < (n:ℝ) := by exact_mod_cast h
          positivity
      linarith
    have hpow : ((1000000:ℝ) / (1 + 1000000)) ^ n ≤ 1 :=
      pow_le_one₀ (by norm_num) (by norm_num)
    exact mul_le_of_le_one_left hc hpow
  have hsum_le : (∑ n in Finset.range 51,
      BetaGeoFitter.probability_of_n_purchases_up_to_time ⟨1, 1, 1, 1⟩ 1000000 n) ≤
        ∑ n in Finset.range 51, ((1:ℝ) / (1 + 1000000) / ((n:ℝ) + 1) +
          (if 0 < n then 1 / ((n:ℝ) * ((n:ℝ) + 1)) else 0)) :=
    Finset.sum_le_sum fun n _ => hterm n
  have hval : (∑ n in Finset.range 51, ((1:ℝ) / (1 + 1000000) / ((n:ℝ) + 1) +
      (if 0 < n then 1 / ((n:ℝ) * ((n:ℝ) + 1)) else 0))) ≤ 981 / 1000 := by
    simp only [Finset.sum_range_succ, Finset.sum_range_zero]
    norm_num
  have habs : |(∑ n in Finset.range 51,
      BetaGeoFitter.probability_of_n_purchases_up_to_time ⟨1, 1, 1, 1⟩ 1000000 n) - 1| ≥
        1 - ∑ n in Finset.range 51,
          BetaGeoFitter.probability_of_n_purchases_up_to_time ⟨1, 1, 1, 1⟩ 1000000 n := by
    rw [abs_sub_comm]
    exact le_abs_self _
  linarith

/-- Modelled from the spec, section 4.2
(`expected_number_of_purchases_up_to_time`), for the Pareto/NBD model:
`(r beta / (alpha (s - 1))) (1 - (beta/(beta+t))^(s-1))`. -/
noncomputable def ParetoNBDFitter.expected_number_of_purchases_up_to_time
    (p : ParetoParams) (t : ℝ) : ℝ :=
  p.r * p.beta / p.alpha / (p.s - 1) * (1 - (p.beta / (p.beta + t)) ^ (p.s - 1))

/-- Development lemma towards the spec's monotonicity property of expected
cumulative purchase counts: for the Pareto/NBD closed form with positive
parameters, the value is 0 at t = 0 and non-decreasing in the horizon t.
The BG/NBD-family variants rest on the Gauss hypergeometric closed form and
are not settled here. -/
theorem expected_purchases_monotone (p : ParetoParams) (t1 t2 : ℝ)
    (hr : 0 < p.r) (halpha : 0 < p.alpha) (hbeta : 0 < p.beta) (hsp : 0 ≤ p.s)
    (ht1 : 0 ≤ t1) (h12 : t1 ≤ t2) :
    ParetoNBDFitter.expected_number_of_purchases_up_to_time p 0 = 0 ∧
    ParetoNBDFitter.expected_number_of_purchases_up_to_time p t1 ≤
      ParetoNBDFitter.expected_number_of_purchases_up_to_time p t2 := by
  constructor
  · unfold ParetoNBDFitter.expected_number_of_purchases_up_to_time
    rw [add_zero, div_self (ne_of_gt hbeta), Real.one_rpow]
    norm_num
  · unfold ParetoNBDFitter.expected_number_of_purchases_up_to_time
    have hb1 : 0 < p.beta + t1 := by linarith
    have hb2 : 0 < p.beta + t2 := by linarith
    have hd1 : 0 < p.beta / (p.beta + t1) := div_pos hbeta hb1
    have hd2 : 0 < p.beta / (p.beta + t2) := div_pos hbeta hb2
    have hle : p.beta / (p.beta + t2) ≤ p.beta / (p.beta + t1) := by
      rw [div_le_div_iff₀ hb2 hb1]
      nlinarith
    have hlog : Real.log (p.beta / (p.beta + t2)) ≤ Real.log (p.beta / (p.beta + t1)) :=
      (Real.log_le_log_iff hd2 hd1).mpr hle
    set C := p.r * p.beta / p.alpha / (p.s - 1) with hC
    set u1 := (p.beta / (p.beta + t1)) ^ (p.s - 1) with hu1d
    set u2 := (p.beta / (p.beta + t2)) ^ (p.s - 1) with hu2d
    have key : 0 ≤ C * (u1 - u2) := by
      rcases le_or_lt p.s 1 with hcase | hcase
      · have hCnp : C ≤ 0 := by
          rcases eq_or_lt_of_le hcase with heq | hlt
          · have hz : p.s - 1 = 0 := by rw [heq]; ring
            rw [hC, hz, div_zero]
          · have hneg : p.s - 1 < 0 := by linarith
            rw [hC]
            exact le_of_lt (div_neg_of_pos_of_neg (by positivity) hneg)
        have hule : u1 ≤ u2 := by
          rw [hu1d, hu2d, Real.rpow_def_of_pos hd1, Real.rpow_def_of_pos hd2]
          apply Real.exp_le_exp.mpr
          exact mul_le_mul_of_nonpos_right hlog (by linarith)
        nlinarith
      · have hCnn : 0 ≤ C := by
          rw [hC]
          exact div_nonneg (by positivity) (by linarith)
        have hule : u2 ≤ u1 := by
          rw [hu1d, hu2d, Real.rpow_def_of_pos hd1, Real.rpow_def_of_pos hd2]
          apply Real.exp_le_exp.mpr
          exact mul_le_mul_of_nonneg_right hlog (by linarith)
        exact mul_nonneg hCnn (by linarith)
    linarith [key]

/-- Concrete instance of the Pareto/NBD expectation monotonicity lemma. -/
theorem expected_purchases_monotone_witness :
    ParetoNBDFitter.expected_number_of_purchases_up_to_time ⟨1, 1, 2, 1⟩ 0 = 0 ∧
    ParetoNBDFitter.expected_number_of_purchases_up_to_time ⟨1, 1, 2, 1⟩ 1 ≤
      ParetoNBDFitter.expected_number_of_purchases_up_to_time ⟨1, 1, 2, 1⟩ 2 :=
  expected_purchases_monotone ⟨1, 1, 2, 1⟩ 1 2 (by norm_num) (by norm_num) (by norm_num)
    (by norm_num) (by norm_num) (by norm_num)

/-- Modelled from the spec, section 4.2
(`conditional_probability_alive_matrix`), the grid builder shared by the
fitters: a matrix indexed by (recency row, frequency column) whose cell is
the pointwise `conditional_probability_alive` of the model at that
(frequency, recency) with T fixed at the (integer-truncated) maximum
observed T of the training data, here the explicit `maxRecency` argument. -/
noncomputable def conditional_probability_alive_matrix
    (palive : ℝ → ℝ → ℝ → ℝ) (maxFrequency maxRecency : ℕ) : List (List ℝ) :=
  (List.range (maxRecency + 1)).map (fun (t_x : ℕ) =>
    (List.range (maxFrequency + 1)).map (fun (x : ℕ) =>
      palive (x : ℝ) (t_x : ℝ) (maxRecency : ℝ)))

/-- Claim C6: every cell of the precomputed grid equals the pointwise
conditional-probability-alive value at (frequency = column index,
recency = row index, T = maximum observed T). -/
theorem conditional_probability_alive_matrix_cells
    (palive : ℝ → ℝ → ℝ → ℝ) (maxFrequency maxRecency i j : ℕ)
    (hi : i < maxRecency + 1) (hj : j < maxFrequency + 1) :
    ((conditional_probability_alive_matrix palive maxFrequency maxRecency).getD i []).getD j 0 =
      palive j i maxRecency := by
  unfold conditional_probability_alive_matrix
  rw [List.getD_eq_getElem?_getD, List.getD_eq_getElem?_getD, List.getElem?_map,
    List.getElem?_range hi]
  simp only [Option.map_some', Option.getD_some]
  rw [List.getElem?_map, List.getElem?_range hj]
  simp only [Option.map_some', Option.getD_some]

/-- Witness for claim C6 at a concrete grid and cell. -/
theorem conditional_probability_alive_matrix_cells_witness :
    ((conditional_probability_alive_matrix
        (BetaGeoFitter.conditional_probability_alive ⟨1, 1, 1, 1⟩) 1 1).getD 0 []).getD 0 0 =
      BetaGeoFitter.conditional_probability_alive ⟨1, 1, 1, 1⟩ ((0:ℕ):ℝ) ((0:ℕ):ℝ) ((1:ℕ):ℝ) :=
  conditional_probability_alive_matrix_cells
    (BetaGeoFitter.conditional_probability_alive ⟨1, 1, 1, 1⟩) 1 1 0 0
    (by norm_num) (by norm_num)

/-- Modelled from the spec, sections 3 and 6: the fitter state -- model type
tag, penalizer coefficient, scale factor, the parameter vector (present only
after a successful fit), the achieved negative log-likelihood, and the
retained training data. -/
structure Fitter where
  modelTag : String
  penalizer_coef : ℝ
  scale : ℝ
  params_ : Option (List (String × ℝ))
  negative_log_likelihood_ : ℝ
  data : Option (List Subject)

/-- Modelled from the spec, section 7 (Pre-fit-access errors): the message of
the "not fitted" error raised by the missing `BaseFitter._unload_params`. -/
def notFittedMessage : String :=
  "Model has not been fit yet. Please call the .fit method first."

/-- Modelled from the spec, section 7 and the test
`TestBaseFitter.test_unload_params`: the missing `BaseFitter._unload_params`,
which fails with the "not fitted" error when no parameter vector is stored
and otherwise returns the named parameter values. -/
def unload_params (m : Fitter) (names : List String) : Except String (List ℝ) :=
  match m.params_ with
  | none => Except.error (notFittedMessage)
  | some ps => Except.ok (names.map (fun nm => (ps.lookup nm).getD 0))

/-- Modelled from the spec, sections 4.2 and 7: a predictive call unloads the
fitted parameters first, so before a successful fit it fails with the
"not fitted" error; shown for `conditional_probability_alive` of the BG/NBD
model. -/
noncomputable def Fitter.predict_conditional_probability_alive
    (m : Fitter) (frequency recency T : ℝ) : Except String ℝ :=
  match m.params_ with
  | none => Except.error (notFittedMessage)
  | some ps =>
      Except.ok (BetaGeoFitter.conditional_probability_alive
        ⟨(ps.lookup ("r")).getD 0, (ps.lookup ("alpha")).getD 0,
          (ps.lookup ("a")).getD 0, (ps.lookup ("b")).getD 0⟩ frequency recency T)

/-- Claim C8: any predictive or diagnostic call on a model with no stored
parameter vector (no successful fit yet) fails with the "not fitted" error;
in particular reading the parameter vector errors. -/
theorem unfitted_model_errors (m : Fitter) (names : List String) (frequency recency T : ℝ)
    (h : m.params_ = none) :
    unload_params m names = Except.error (notFittedMessage) ∧
    Fitter.predict_conditional_probability_alive m frequency recency T =
      Except.error (notFittedMessage) := by
  constructor
  · simp [unload_params, h]
  · simp [Fitter.predict_conditional_probability_alive, h]

/-- Witness for claim C8 on a concrete unfitted fitter. -/
theorem unfitted_model_errors_witness :
    unload_params ⟨("BetaGeoFitter"), 0, 1, none, 0, none⟩ [] =
      Except.error (notFittedMessage) ∧
    Fitter.predict_conditional_probability_alive ⟨("BetaGeoFitter"), 0, 1, none, 0, none⟩ 1 1 2 =
      Except.error (notFittedMessage) :=
  unfitted_model_errors ⟨("BetaGeoFitter"), 0, 1, none, 0, none⟩ [] 1 1 2 rfl

/-- Modelled from the spec, section 6 (Persisted model state): the opaque
bundle written by `save_model` -- model type tag, parameter vector, scale
factor, penalizer coefficient, achieved objective value, optionally the
training data. -/
structure ModelBundle where
  modelTag : String
  penalizer_coef : ℝ
  scale : ℝ
  params_ : Option (List (String × ℝ))
  negative_log_likelihood_ : ℝ
  data : Option (List Subject)

/-- Modelled from the spec, section 6: `save_model` captures the fitter state
exactly (binary serialisation of floats is lossless); with
`saveData = false` the training data is omitted from the bundle. -/
def save_model (m : Fitter) (saveData : Bool) : ModelBundle :=
  ⟨m.modelTag, m.penalizer_coef, m.scale, m.params_, m.negative_log_likelihood_,
    if saveData then m.data else none⟩

/-- Modelled from the spec, section 6: `load_model` restores the fitter state
from a persisted bundle. -/
def load_model (b : ModelBundle) : Fitter :=
  ⟨b.modelTag, b.penalizer_coef, b.scale, b.params_, b.negative_log_likelihood_, b.data⟩

/-- Claim C9: persisting a fitted model with `save_model` and reloading with
`load_model` reproduces the original model exactly -- identical parameter
vector, scale factor, penalizer coefficient and achieved negative
log-likelihood -- and a predictive method applied to the reloaded model
agrees bit-for-bit with the original at every query input. -/
theorem save_load_round_trip (m : Fitter) (frequency recency T : ℝ) :
    load_model (save_model m true) = m ∧
    (load_model (save_model m true)).params_ = m.params_ ∧
    (load_model (save_model m true)).scale = m.scale ∧
    (load_model (save_model m true)).penalizer_coef = m.penalizer_coef ∧
    (load_model (save_model m true)).negative_log_likelihood_ = m.negative_log_likelihood_ ∧
    Fitter.predict_conditional_probability_alive (load_model (save_model m true))
        frequency recency T =
      Fitter.predict_conditional_probability_alive m frequency recency T :=
  ⟨rfl, rfl, rfl, rfl, rfl, rfl⟩

/-- Python warning categories relevant to the btyd package init module. -/
inductive PyWarningCategory where
  | deprecationWarning
  | userWarning
deriving DecidableEq

/-- A warning event: category plus message. -/
structure PyWarning where
  category : PyWarningCategory
  message : String
deriving DecidableEq

/-- Observable effects of executing the btyd package init module. -/
inductive ImportEffect where
  | importSubmodule (name : String)
  | defineVersion (version : String)
  | warn (w : PyWarning)
  | constructFitter (name : String)
  | raiseError (message : String)
deriving DecidableEq

/-- The deprecation message of `btyd.deprecated` (src/btyd, package init
module, line 29). -/
def deprecatedMessage : String :=
  "All Fitter models are deprecated and will be removed in the final stage of Beta development."

/-- The function `btyd.deprecated` (package init module, lines 28-29): one
`warnings.warn(..., DeprecationWarning)` call. -/
def deprecated : List ImportEffect :=
  [ImportEffect.warn ⟨PyWarningCategory.deprecationWarning, deprecatedMessage⟩]

/-- The top-level statement sequence of the btyd package init module: the ten
submodule imports, the `__version__` assignment, then the `deprecated()`
call; the `__all__` tuple assignment has no observable effect.  No fitter is
constructed and nothing is raised. -/
def btydModuleInit : List ImportEffect :=
  [ImportEffect.importSubmodule ("btyd.fitters"),
   ImportEffect.importSubmodule ("btyd.fitters.beta_geo_fitter"),
   ImportEffect.importSubmodule ("btyd.fitters.beta_geo_beta_binom_fitter"),
   ImportEffect.importSubmodule ("btyd.fitters.modified_beta_geo_fitter"),
   ImportEffect.importSubmodule ("btyd.fitters.pareto_nbd_fitter"),
   ImportEffect.importSubmodule ("btyd.fitters.gamma_gamma_fitter"),
   ImportEffect.importSubmodule ("btyd.fitters.beta_geo_covar_fitter"),
   ImportEffect.importSubmodule ("btyd.models"),
   ImportEffect.importSubmodule ("btyd.models.beta_geo_model"),
   ImportEffect.importSubmodule ("btyd.models.gamma_gamma_model"),
   ImportEffect.defineVersion ("0.1b2")] ++ deprecated

/-- The warnings emitted by an effect trace. -/
def emittedWarnings (effects : List ImportEffect) : List PyWarning :=
  effects.filterMap (fun e => match e with
    | ImportEffect.warn w => some w
    | _ => none)

/-- The errors raised by an effect trace. -/
def raisedErrors (effects : List ImportEffect) : List String :=
  effects.filterMap (fun e => match e with
    | ImportEffect.raiseError message => some message
    | _ => none)

/-- The fitter constructions performed by an effect trace. -/
def constructedFitters (effects : List ImportEffect) : List String :=
  effects.filterMap (fun e => match e with
    | ImportEffect.constructFitter name => some name
    | _ => none)

/-- Claim C10: importing the btyd package emits exactly one
DeprecationWarning, carrying exactly the deprecation message, as a side
effect of module init; no fitter is constructed during init, and the init
sequence raises nothing. -/
theorem import_emits_single_deprecation_warning :
    emittedWarnings btydModuleInit =
      [⟨PyWarningCategory.deprecationWarning, deprecatedMessage⟩] ∧
    raisedErrors btydModuleInit = [] ∧
    constructedFitters btydModuleInit = [] :=
  ⟨rfl, rfl, rfl⟩

/-- Positivity of the Beta function at positive arguments. -/
lemma betaFn_pos (x y : ℝ) (hx : 0 < x) (hy : 0 < y) : 0 < betaFn x y :=
  div_pos (mul_pos (Real.Gamma_pos_of_pos hx) (Real.Gamma_pos_of_pos hy))
    (Real.Gamma_pos_of_pos (by linarith))

/-- Beta function recurrence in the second argument:
`B(x, z+1) = (z/(x+z)) B(x, z)`. -/
lemma betaFn_succ_right (x z : ℝ) (hz : 0 < z) (hxz : 0 < x + z) :
    betaFn x (z + 1) = z / (x + z) * betaFn x z := by
  unfold betaFn
  rw [Real.Gamma_add_one (ne_of_gt hz),
    show x + (z + 1) = (x + z) + 1 by ring, Real.Gamma_add_one (ne_of_gt hxz)]
  have h1 : Real.Gamma (x + z) ≠ 0 := ne_of_gt (Real.Gamma_pos_of_pos hxz)
  have h2 : x + z ≠ 0 := ne_of_gt hxz
  field_simp
  ring

/-- The Beta function shrinks when its second argument grows by a natural
number. -/
lemma betaFn_le_of_add_nat (x y : ℝ) (hx : 0 < x) (hy : 0 < y) (m : ℕ) :
    betaFn x (y + m) ≤ betaFn x y := by
  induction m with
  | zero => simp
  | succ k ih =>
      have hk0 : (0:ℝ) ≤ (k:ℝ) := Nat.cast_nonneg k
      have hyk : 0 < y + (k:ℝ) := by linarith
      have hxyk : 0 < x + (y + (k:ℝ)) := by linarith
      have heq : betaFn x (y + ((k + 1 : ℕ):ℝ)) =
          (y + k) / (x + (y + k)) * betaFn x (y + k) := by
        rw [show y + (((k + 1 : ℕ)):ℝ) = (y + (k:ℝ)) + 1 by push_cast; ring]
        exact betaFn_succ_right x (y + (k:ℝ)) hyk hxyk
      rw [heq]
      have h1 : (y + (k:ℝ)) / (x + (y + (k:ℝ))) ≤ 1 := by
        rw [div_le_one hxyk]
        linarith
      have h2 : 0 < betaFn x (y + (k:ℝ)) := betaFn_pos x (y + (k:ℝ)) hx hyk
      calc (y + (k:ℝ)) / (x + (y + (k:ℝ))) * betaFn x (y + (k:ℝ))
          ≤ 1 * betaFn x (y + (k:ℝ)) := mul_le_mul_of_nonneg_right h1 h2.le
        _ = betaFn x (y + (k:ℝ)) := one_mul _
        _ ≤ betaFn x y := ih

/-- Pascal-type identity for the Beta function:
`B(x, y) = B(x+1, y) + B(x, y+1)`. -/
lemma betaFn_split (x y : ℝ) (hx : 0 < x) (hy : 0 < y) :
    betaFn x y = betaFn (x + 1) y + betaFn x (y + 1) := by
  unfold betaFn
  rw [Real.Gamma_add_one (ne_of_gt hx), Real.Gamma_add_one (ne_of_gt hy),
    show (x + 1) + y = (x + y) + 1 by ring, show x + (y + 1) = (x + y) + 1 by ring,
    Real.Gamma_add_one (ne_of_gt (show (0:ℝ) < x + y by linarith))]
  have h1 : Real.Gamma (x + y) ≠ 0 := ne_of_gt (Real.Gamma_pos_of_pos (by linarith))
  have h2 : x + y ≠ 0 := ne_of_gt (by linarith)
  field_simp
  ring

/-- The negative-binomial series coefficient
`Gamma(r+j) / (Gamma(r) Gamma(j+1))` appearing in the BG/NBD purchase-count
distribution. -/
noncomputable def nbCoef (r : ℝ) (j : ℕ) : ℝ :=
  Real.Gamma (r + j) / Real.Gamma r / Real.Gamma ((j:ℝ) + 1)

/-- Partial sums of the negative-binomial mass function with success
probability `1 - z` and shape `r`. -/
noncomputable def nbPartial (r z : ℝ) (n : ℕ) : ℝ :=
  ∑ j in Finset.range n, nbCoef r j * z ^ j * (1 - z) ^ r

lemma nbCoef_pos (r : ℝ) (hr : 0 < r) (j : ℕ) : 0 < nbCoef r j := by
  have hj : (0:ℝ) ≤ (j:ℝ) := Nat.cast_nonneg j
  exact div_pos (div_pos (Real.Gamma_pos_of_pos (by linarith)) (Real.Gamma_pos_of_pos hr))
    (Real.Gamma_pos_of_pos (by linarith))

lemma nbCoef_zero (r : ℝ) (hr : 0 < r) : nbCoef r 0 = 1 := by
  have h : Real.Gamma r ≠ 0 := ne_of_gt (Real.Gamma_pos_of_pos hr)
  simp [nbCoef, Real.Gamma_one, h]

lemma nbCoef_rec (r : ℝ) (hr : 0 < r) (k : ℕ) :
    ((k:ℝ) + 1) * nbCoef r (k + 1) = (r + k) * nbCoef r k := by
  have hk : (0:ℝ) ≤ (k:ℝ) := Nat.cast_nonneg k
  have hrk : r + (k:ℝ) ≠ 0 := ne_of_gt (by linarith)
  have hk1 : (k:ℝ) + 1 ≠ 0 := by positivity
  have hG1 : Real.Gamma r ≠ 0 := ne_of_gt (Real.Gamma_pos_of_pos hr)
  have hG2 : Real.Gamma ((k:ℝ) + 1) ≠ 0 := ne_of_gt (Real.Gamma_pos_of_pos (by linarith))
  unfold nbCoef
  rw [show r + (((k + 1 : ℕ)):ℝ) = (r + (k:ℝ)) + 1 by push_cast; ring,
    Real.Gamma_add_one hrk,
    show ((((k + 1 : ℕ))):ℝ) + 1 = ((k:ℝ) + 1) + 1 by push_cast; ring,
    Real.Gamma_add_one hk1]
  field_simp
  ring

lemma nbPartial_hasDerivAt (r : ℝ) (hr : 0 < r) (n : ℕ) (z : ℝ) (hz : z < 1) :
    HasDerivAt (fun u : ℝ => nbPartial r u (n + 1))
      (-((r + n) * nbCoef r n * z ^ n * (1 - z) ^ (r - 1))) z := by
  have hz1 : (0:ℝ) < 1 - z := by linarith
  have hz1' : (1:ℝ) - z ≠ 0 := ne_of_gt hz1
  have hone : HasDerivAt (fun u : ℝ => 1 - u) (-1) z := (hasDerivAt_id z).const_sub 1
  have hrpow : HasDerivAt (fun u : ℝ => (1 - u) ^ r) (-(r * (1 - z) ^ (r - 1))) z := by
    have h : HasDerivAt (fun u : ℝ => (1 - u) ^ r) (r * (1 - z) ^ (r - 1) * (-1)) z :=
      HasDerivAt.comp z (Real.hasDerivAt_rpow_const (x := 1 - z) (p := r) (Or.inl hz1')) hone
    convert h using 1
    ring
  induction n with
  | zero =>
      have hsplit : (fun u : ℝ => nbPartial r u 1) =
          fun u : ℝ => nbCoef r 0 * u ^ 0 * (1 - u) ^ r := by
        funext u
        simp only [nbPartial, Finset.sum_range_one]
      rw [hsplit]
      have h := ((hasDerivAt_pow 0 z).const_mul (nbCoef r 0)).mul hrpow
      convert h using 1
      push_cast
      ring
  | succ k ih =>
      have hsplit : (fun u : ℝ => nbPartial r u (k + 1 + 1)) =
          fun u : ℝ => nbPartial r u (k + 1) + nbCoef r (k + 1) * u ^ (k + 1) * (1 - u) ^ r := by
        funext u
        simp only [nbPartial, Finset.sum_range_succ]
      rw [hsplit]
      have hterm := ((hasDerivAt_pow (k + 1) z).const_mul (nbCoef r (k + 1))).mul hrpow
      have h := ih.add hterm
      convert h using 1
      have hrec := nbCoef_rec r hr k
      have hpow : (1 - z) ^ r = (1 - z) ^ (r - 1) * (1 - z) := by
        rw [← Real.rpow_add_one hz1' (r - 1)]
        norm_num
  
      rw [hpow]
      push_cast [Nat.add_sub_cancel]
      linear_combination (-(z ^ k * (1 - z) ^ (r - 1))) * hrec

lemma nbPartial_zero (r : ℝ) (hr : 0 < r) (n : ℕ) : nbPartial r 0 (n + 1) = 1 := by
  unfold nbPartial
  rw [Finset.sum_eq_single 0]
  · rw [nbCoef_zero r hr]
    norm_num [Real.one_rpow]
  · intro b _ hb
    simp [zero_pow hb]
  · intro h
    exact absurd (Finset.mem_range.mpr (Nat.succ_pos n)) h

lemma nbPartial_le_one (r z : ℝ) (hr : 0 < r) (hz0 : 0 ≤ z) (hz1 : z < 1) (n : ℕ) :
    nbPartial r z n ≤ 1 := by
  cases n with
  | zero => simp [nbPartial]
  | succ m =>
      have hconv : Convex ℝ (Set.Icc (0:ℝ) z) := convex_Icc 0 z
      have hder : ∀ u ∈ Set.Icc (0:ℝ) z, HasDerivAt (fun w : ℝ => nbPartial r w (m + 1))
          (-((r + m) * nbCoef r m * u ^ m * (1 - u) ^ (r - 1))) u := by
        intro u hu
        exact nbPartial_hasDerivAt r hr m u (lt_of_le_of_lt hu.2 hz1)
      have hcont : ContinuousOn (fun w : ℝ => nbPartial r w (m + 1)) (Set.Icc 0 z) :=
        fun u hu => (hder u hu).continuousAt.continuousWithinAt
      have hdiff : DifferentiableOn ℝ (fun w : ℝ => nbPartial r w (m + 1))
          (interior (Set.Icc (0:ℝ) z)) :=
        fun u hu => ((hder u (interior_subset hu)).differentiableAt).differentiableWithinAt
      have hnonpos : ∀ u ∈ interior (Set.Icc (0:ℝ) z),
          deriv (fun w : ℝ => nbPartial r w (m + 1)) u ≤ 0 := by
        intro u hu
        have hu' := interior_subset hu
        rw [(hder u hu').deriv]
        have hm0 : (0:ℝ) ≤ (m:ℝ) := Nat.cast_nonneg m
        have h1 : (0:ℝ) ≤ (r + m) * nbCoef r m * u ^ m * (1 - u) ^ (r - 1) := by
          apply mul_nonneg
          apply mul_nonneg
          apply mul_nonneg
          · linarith
          · exact (nbCoef_pos r hr m).le
          · exact pow_nonneg hu'.1 m
          · exact Real.rpow_nonneg (by linarith [hu'.2] : (0:ℝ) ≤ 1 - u) _
        linarith
      have hanti := antitoneOn_of_deriv_nonpos hconv hcont hdiff hnonpos
      have h := hanti (Set.left_mem_Icc.mpr hz0) (Set.right_mem_Icc.mpr hz0) hz0
      have h2 : nbPartial r z (m + 1) ≤ nbPartial r 0 (m + 1) := h
      rw [nbPartial_zero r hr m] at h2
      exact h2

lemma nbPartial_sub_one_bound (r z : ℝ) (hr : 0 < r) (hz0 : 0 ≤ z) (hz1 : z < 1) (n : ℕ) :
    |nbPartial r z (n + 1) - 1| ≤
      ((r + n) * nbCoef r n * z ^ n) * (max 1 ((1 - z) ^ (r - 1)) * z) := by
  have hK1 : (1:ℝ) ≤ max 1 ((1 - z) ^ (r - 1)) := le_max_left _ _
  have hn0 : (0:ℝ) ≤ (n:ℝ) := Nat.cast_nonneg n
  have hbound : ∀ u ∈ Set.Icc (0:ℝ) z,
      ‖-((r + n) * nbCoef r n * u ^ n * (1 - u) ^ (r - 1))‖ ≤
        (r + n) * nbCoef r n * z ^ n * max 1 ((1 - z) ^ (r - 1)) := by
    intro u hu
    have hu1 : u < 1 := lt_of_le_of_lt hu.2 hz1
    have h1u : (0:ℝ) < 1 - u := by linarith
    rw [norm_neg, Real.norm_eq_abs, abs_of_nonneg (by
      apply mul_nonneg
      apply mul_nonneg
      apply mul_nonneg
      · linarith
      · exact (nbCoef_pos r hr n).le
      · exact pow_nonneg hu.1 n
      · exact Real.rpow_nonneg h1u.le _)]
    have hpow : u ^ n ≤ z ^ n := pow_le_pow_left₀ hu.1 hu.2 n
    have hrp : (1 - u) ^ (r - 1) ≤ max 1 ((1 - z) ^ (r - 1)) := by
      rcases le_or_lt 1 r with hc | hc
      · exact le_trans (Real.rpow_le_one h1u.le (by linarith [hu.1]) (by linarith)) hK1
      · refine le_trans ?_ (le_max_right _ _)
        have h1z : (0:ℝ) < 1 - z := by linarith
        rw [Real.rpow_def_of_pos h1u, Real.rpow_def_of_pos h1z]
        apply Real.exp_le_exp.mpr
        have hlog : Real.log (1 - z) ≤ Real.log (1 - u) :=
          (Real.log_le_log_iff h1z h1u).mpr (by linarith [hu.2])
        exact mul_le_mul_of_nonpos_right hlog (by linarith)
    have base0 : 0 ≤ (r + n) * nbCoef r n := mul_nonneg (by linarith) (nbCoef_pos r hr n).le
    exact mul_le_mul (mul_le_mul_of_nonneg_left hpow base0) hrp
      (Real.rpow_nonneg h1u.le _) (mul_nonneg base0 (pow_nonneg hz0 n))
  have hder : ∀ u ∈ Set.Icc (0:ℝ) z, HasDerivWithinAt (fun w : ℝ => nbPartial r w (n + 1))
      (-((r + n) * nbCoef r n * u ^ n * (1 - u) ^ (r - 1))) (Set.Icc (0:ℝ) z) u :=
    fun u hu => (nbPartial_hasDerivAt r hr n u (lt_of_le_of_lt hu.2 hz1)).hasDerivWithinAt
  have h := Convex.norm_image_sub_le_of_norm_hasDerivWithin_le hder hbound (convex_Icc 0 z)
    (Set.left_mem_Icc.mpr hz0) (Set.right_mem_Icc.mpr hz0)
  have h1 : ‖nbPartial r z (n + 1) - nbPartial r 0 (n + 1)‖ ≤
      (r + n) * nbCoef r n * z ^ n * max 1 ((1 - z) ^ (r - 1)) * ‖z - 0‖ := h
  rw [nbPartial_zero r hr n] at h1
  have h2 : |nbPartial r z (n + 1) - 1| ≤
      (r + n) * nbCoef r n * z ^ n * max 1 ((1 - z) ^ (r - 1)) * z := by
    simpa [Real.norm_eq_abs, abs_of_nonneg hz0] using h1
  linarith [h2]

lemma nb_deriv_summable (r z : ℝ) (hr : 0 < r) (hz0 : 0 ≤ z) (hz1 : z < 1) :
    Summable (fun n : ℕ => (r + n) * nbCoef r n * z ^ n) := by
  have hρ1 : (1 + z) / 2 < 1 := by linarith
  have hρ0 : (0:ℝ) < (1 + z) / 2 := by linarith
  have hρz : z < (1 + z) / 2 := by linarith
  apply summable_of_ratio_norm_eventually_le hρ1
  obtain ⟨N₀, hN₀⟩ := exists_nat_ge (z * (r + 1) / ((1 + z) / 2 - z))
  refine Filter.eventually_atTop.mpr ⟨N₀, fun n hn => ?_⟩
  have hn' : (N₀:ℝ) ≤ (n:ℝ) := Nat.cast_le.mpr hn
  have hρz' : (0:ℝ) < (1 + z) / 2 - z := by linarith
  have hkey : z * (r + 1) ≤ (n:ℝ) * ((1 + z) / 2 - z) := by
    have h1 := (div_le_iff₀ hρz').mp hN₀
    nlinarith [h1, hn', hρz']
  have hn0 : (0:ℝ) ≤ (n:ℝ) := Nat.cast_nonneg n
  have hn1 : (0:ℝ) < (n:ℝ) + 1 := by linarith
  have hrec := nbCoef_rec r hr n
  have h1 : nbCoef r (n + 1) = (r + (n:ℝ)) * nbCoef r n / ((n:ℝ) + 1) := by
    rw [eq_div_iff (ne_of_gt hn1)]
    linarith [hrec]
  have hb : (r + ((n + 1 : ℕ):ℝ)) * nbCoef r (n + 1) * z ^ (n + 1) =
      ((r + n) * nbCoef r n * z ^ n) * ((r + (n:ℝ) + 1) * z / ((n:ℝ) + 1)) := by
    rw [h1, pow_succ]
    push_cast
    field_simp
    ring
  rw [hb]
  have hq0 : 0 ≤ (r + (n:ℝ) + 1) * z / ((n:ℝ) + 1) :=
    div_nonneg (mul_nonneg (by linarith) hz0) hn1.le
  have hqρ : (r + (n:ℝ) + 1) * z / ((n:ℝ) + 1) ≤ (1 + z) / 2 := by
    rw [div_le_iff₀ hn1]
    nlinarith [hkey, hρ0]
  calc ‖(r + n) * nbCoef r n * z ^ n * ((r + (n:ℝ) + 1) * z / ((n:ℝ) + 1))‖
      = ‖(r + n) * nbCoef r n * z ^ n‖ * ‖(r + (n:ℝ) + 1) * z / ((n:ℝ) + 1)‖ := norm_mul _ _
    _ = ‖(r + n) * nbCoef r n * z ^ n‖ * ((r + (n:ℝ) + 1) * z / ((n:ℝ) + 1)) := by
        rw [Real.norm_eq_abs ((r + (n:ℝ) + 1) * z / ((n:ℝ) + 1)), abs_of_nonneg hq0]
    _ ≤ ‖(r + n) * nbCoef r n * z ^ n‖ * ((1 + z) / 2) :=
        mul_le_mul_of_nonneg_left hqρ (norm_nonneg _)
    _ = (1 + z) / 2 * ‖(r + n) * nbCoef r n * z ^ n‖ := mul_comm _ _

/-- The BG/NBD purchase-count probability rewritten through the Beta-weighted
negative-binomial partial sums, at `z = t/(alpha+t)`. -/
lemma bg_pmf_structured (r al a b t : ℝ) (hal : 0 < al) (ht : 0 < t) (n : ℕ) :
    BetaGeoFitter.probability_of_n_purchases_up_to_time ⟨r, al, a, b⟩ t n =
      betaFn a (b + n) / betaFn a b *
          (nbCoef r n * (t / (al + t)) ^ n * (1 - t / (al + t)) ^ r)
        + (if 0 < n then
            betaFn (a + 1) (b + n - 1) / betaFn a b * (1 - nbPartial r (t / (al + t)) n)
          else 0) := by
  have hs : (0:ℝ) < al + t := by linarith
  have hom : al / (al + t) = 1 - t / (al + t) := by
    field_simp
  simp only [BetaGeoFitter.probability_of_n_purchases_up_to_time]
  rw [hom, Real.rpow_natCast]
  have hinner : (1 - t / (al + t)) ^ r *
      ∑ j in Finset.range n, Real.Gamma (r + ↑j) / Real.Gamma r / Real.Gamma ((j:ℝ) + 1) *
        (t / (al + t)) ^ (j:ℝ) = nbPartial r (t / (al + t)) n := by
    rw [Finset.mul_sum]
    unfold nbPartial nbCoef
    refine Finset.sum_congr rfl fun j _ => ?_
    rw [Real.rpow_natCast]
    ring
  rw [hinner]
  congr 1
  unfold nbCoef
  ring

/-- Claim C4, amended: for every valid BG/NBD parameter vector (all
components positive) and every horizon `t > 0`, the purchase-count
probabilities `probability_of_n_purchases_up_to_time(t, n)` all lie in
`[0, 1]` and the series sums to exactly 1 over the full support
`n = 0, 1, 2, ...`; the spec's fixed truncation `n` up to 20-50 with a 1e-2
tolerance is refuted separately by `pmf_truncation_counterexample`. -/
theorem pmf_proper_over_full_support (p : BGParams) (t : ℝ)
    (hr : 0 < p.r) (halpha : 0 < p.alpha) (ha : 0 < p.a) (hb : 0 < p.b) (ht : 0 < t) :
    HasSum (fun n : ℕ => BetaGeoFitter.probability_of_n_purchases_up_to_time p t n) 1 ∧
    ∀ n : ℕ, 0 ≤ BetaGeoFitter.probability_of_n_purchases_up_to_time p t n ∧
      BetaGeoFitter.probability_of_n_purchases_up_to_time p t n ≤ 1 := by
  obtain ⟨r, al, a, b⟩ := p
  have hr : 0 < r := hr
  have hal : 0 < al := halpha
  have ha : 0 < a := ha
  have hb : 0 < b := hb
  have hs : (0:ℝ) < al + t := by linarith
  have hz0 : 0 < t / (al + t) := div_pos ht hs
  have hz1 : t / (al + t) < 1 := by
    rw [div_lt_one hs]
    linarith
  have hBab : 0 < betaFn a b := betaFn_pos a b ha hb
  have hnonneg : ∀ n : ℕ,
      0 ≤ BetaGeoFitter.probability_of_n_purchases_up_to_time ⟨r, al, a, b⟩ t n := by
    intro n
    have hn0 : (0:ℝ) ≤ (n:ℝ) := Nat.cast_nonneg n
    rw [bg_pmf_structured r al a b t hal ht n]
    apply add_nonneg
    · apply mul_nonneg
      · exact div_nonneg (betaFn_pos a (b + n) ha (by linarith)).le hBab.le
      · apply mul_nonneg
        apply mul_nonneg
        · exact (nbCoef_pos r hr n).le
        · exact pow_nonneg hz0.le n
        · exact Real.rpow_nonneg (by linarith) _
    · rcases Nat.eq_zero_or_pos n with h | h
      · simp [h]
      · rw [if_pos h]
        have hn1 : (1:ℝ) ≤ (n:ℝ) := Nat.one_le_cast.mpr h
        apply mul_nonneg
        · exact div_nonneg (betaFn_pos (a + 1) (b + n - 1) (by linarith) (by linarith)).le
            hBab.le
        · have := nbPartial_le_one r (t / (al + t)) hr hz0.le hz1 n
          linarith
  have hPsum : ∀ N : ℕ,
      (∑ n in Finset.range (N + 1),
          BetaGeoFitter.probability_of_n_purchases_up_to_time ⟨r, al, a, b⟩ t n)
        = 1 - betaFn a (b + N) / betaFn a b * (1 - nbPartial r (t / (al + t)) (N + 1)) := by
    intro N
    induction N with
    | zero =>
        rw [Finset.sum_range_one, bg_pmf_structured r al a b t hal ht 0,
          if_neg (lt_irrefl 0)]
        have h0 : betaFn a (b + ((0:ℕ):ℝ)) = betaFn a b := by norm_num
        rw [h0, div_self (ne_of_gt hBab)]
        have h1 : nbPartial r (t / (al + t)) 1 =
            nbCoef r 0 * (t / (al + t)) ^ 0 * (1 - t / (al + t)) ^ r := by
          unfold nbPartial
          rw [Finset.sum_range_one]
        rw [h1]
        ring
    | succ M ih =>
        rw [Finset.sum_range_succ, ih, bg_pmf_structured r al a b t hal ht (M + 1),
          if_pos (Nat.succ_pos M)]
        have hM0 : (0:ℝ) ≤ (M:ℝ) := Nat.cast_nonneg M
        have hcast1 : b + ((M + 1 : ℕ):ℝ) - 1 = b + (M:ℝ) := by push_cast; ring
        have hcast2 : b + ((M + 1 : ℕ):ℝ) = b + (M:ℝ) + 1 := by push_cast; ring
        rw [hcast1, hcast2]
        have hsplitbeta : betaFn (a + 1) (b + (M:ℝ)) =
            betaFn a (b + (M:ℝ)) - betaFn a (b + (M:ℝ) + 1) := by
          have h := betaFn_split a (b + (M:ℝ)) ha (by linarith)
          linarith [h]
        rw [hsplitbeta]
        have hS : nbPartial r (t / (al + t)) (M + 1 + 1) =
            nbPartial r (t / (al + t)) (M + 1) +
              nbCoef r (M + 1) * (t / (al + t)) ^ (M + 1) * (1 - t / (al + t)) ^ r := by
          unfold nbPartial
          rw [Finset.sum_range_succ]
        rw [hS]
        ring
  have hasum : HasSum
      (fun n : ℕ => BetaGeoFitter.probability_of_n_purchases_up_to_time ⟨r, al, a, b⟩ t n) 1 := by
    rw [hasSum_iff_tendsto_nat_of_nonneg hnonneg]
    rw [← Filter.tendsto_add_atTop_iff_nat 1]
    have hfun : (fun N : ℕ => ∑ n in Finset.range (N + 1),
        BetaGeoFitter.probability_of_n_purchases_up_to_time ⟨r, al, a, b⟩ t n) =
        fun N : ℕ => 1 - betaFn a (b + N) / betaFn a b *
          (1 - nbPartial r (t / (al + t)) (N + 1)) := by
      funext N
      exact hPsum N
    rw [hfun]
    have hf0 : ∀ N : ℕ, 0 ≤ betaFn a (b + N) / betaFn a b *
        (1 - nbPartial r (t / (al + t)) (N + 1)) := by
      intro N
      have hN0 : (0:ℝ) ≤ (N:ℝ) := Nat.cast_nonneg N
      apply mul_nonneg
      · exact div_nonneg (betaFn_pos a (b + N) ha (by linarith)).le hBab.le
      · have := nbPartial_le_one r (t / (al + t)) hr hz0.le hz1 (N + 1)
        linarith
    have hfg : ∀ N : ℕ, betaFn a (b + N) / betaFn a b *
        (1 - nbPartial r (t / (al + t)) (N + 1)) ≤
        ((r + N) * nbCoef r N * (t / (al + t)) ^ N) *
          (max 1 ((1 - t / (al + t)) ^ (r - 1)) * (t / (al + t))) := by
      intro N
      calc betaFn a (b + N) / betaFn a b * (1 - nbPartial r (t / (al + t)) (N + 1))
          ≤ 1 * (1 - nbPartial r (t / (al + t)) (N + 1)) := by
            apply mul_le_mul_of_nonneg_right
            · rw [div_le_one hBab]
              exact betaFn_le_of_add_nat a b ha hb N
            · have := nbPartial_le_one r (t / (al + t)) hr hz0.le hz1 (N + 1)
              linarith
        _ = 1 - nbPartial r (t / (al + t)) (N + 1) := one_mul _
        _ ≤ |nbPartial r (t / (al + t)) (N + 1) - 1| := by
            rw [abs_sub_comm]
            exact le_abs_self _
        _ ≤ ((r + N) * nbCoef r N * (t / (al + t)) ^ N) *
              (max 1 ((1 - t / (al + t)) ^ (r - 1)) * (t / (al + t))) :=
            nbPartial_sub_one_bound r (t / (al + t)) hr hz0.le hz1 N
    have hg0 : Filter.Tendsto (fun N : ℕ => ((r + N) * nbCoef r N * (t / (al + t)) ^ N) *
        (max 1 ((1 - t / (al + t)) ^ (r - 1)) * (t / (al + t)))) Filter.atTop (nhds 0) := by
      have h1 := (nb_deriv_summable r (t / (al + t)) hr hz0.le hz1).tendsto_atTop_zero
      have h2 := h1.mul_const (max 1 ((1 - t / (al + t)) ^ (r - 1)) * (t / (al + t)))
      simpa using h2
    have h0 := squeeze_zero hf0 hfg hg0
    have h3 := h0.const_sub 1
    simpa using h3
  refine ⟨hasum, fun n => ⟨hnonneg n, ?_⟩⟩
  have hle : BetaGeoFitter.probability_of_n_purchases_up_to_time ⟨r, al, a, b⟩ t n ≤
      ∑ k in Finset.range (n + 1),
        BetaGeoFitter.probability_of_n_purchases_up_to_time ⟨r, al, a, b⟩ t k :=
    Finset.single_le_sum (fun k _ => hnonneg k) (Finset.self_mem_range_succ n)
  rw [hPsum n] at hle
  have hn0 : (0:ℝ) ≤ (n:ℝ) := Nat.cast_nonneg n
  have hw : 0 ≤ betaFn a (b + n) / betaFn a b * (1 - nbPartial r (t / (al + t)) (n + 1)) := by
    apply mul_nonneg
    · exact div_nonneg (betaFn_pos a (b + n) ha (by linarith)).le hBab.le
    · have := nbPartial_le_one r (t / (al + t)) hr hz0.le hz1 (n + 1)
      linarith
  linarith

/-- Witness for the amended claim C4 at a concrete valid parameter vector and
horizon. -/
theorem pmf_proper_over_full_support_witness :
    HasSum (fun n : ℕ =>
      BetaGeoFitter.probability_of_n_purchases_up_to_time ⟨2, 3, 1, 2⟩ 5 n) 1 ∧
    ∀ n : ℕ, 0 ≤ BetaGeoFitter.probability_of_n_purchases_up_to_time ⟨2, 3, 1, 2⟩ 5 n ∧
      BetaGeoFitter.probability_of_n_purchases_up_to_time ⟨2, 3, 1, 2⟩ 5 n ≤ 1 :=
  pmf_proper_over_full_support ⟨2, 3, 1, 2⟩ 5 (by norm_num) (by norm_num) (by norm_num)
    (by norm_num) (by norm_num)

/-- Modelled from the spec, section 3 (Parameter Vector): the BG/BB
discrete-time parameter vector (alpha, beta, gamma, delta). -/
structure BBParams where
  alpha : ℝ
  beta : ℝ
  gamma : ℝ
  delta : ℝ

/-- Log of the Beta function, `scipy.special.betaln` idealised over ℝ at
positive arguments. -/
noncomputable def betaln (x y : ℝ) : ℝ :=
  Real.log (betaFn x y)

/-- Modelled from the spec, section 4.2, for the BG/BB discrete-time model:
the per-subject log-likelihood, assembled as in Fader-Hardie (2010):
`logaddexp` of the still-alive term
`betaln(alpha+x, beta+T-x) - betaln(alpha,beta) + betaln(gamma, delta+T) - betaln(gamma,delta)`
and the log of `1e-15` plus the dropout sum over `j < T - t_x` of
`B(alpha+x, beta+t_x-x+j)/B(alpha,beta) * B(gamma+1, delta+t_x+j)/B(gamma,delta)`. -/
noncomputable def BetaGeoBetaBinomFitter.loglikelihood (p : BBParams) (x tx T : ℕ) : ℝ :=
  logaddexp
    (betaln (p.alpha + x) (p.beta + T - x) - betaln p.alpha p.beta
      + betaln p.gamma (p.delta + T) - betaln p.gamma p.delta)
    (Real.log (1e-15 + ∑ j in Finset.range (T - tx),
      betaFn (p.alpha + x) (p.beta + tx - x + j) / betaFn p.alpha p.beta *
        (betaFn (p.gamma + 1) (p.delta + tx + j) / betaFn p.gamma p.delta)))

/-- Modelled from the spec, section 4.2, for the BG/BB model: the conditional
probability of being alive at the end of `m` further periods, Fader-Hardie
(2010) equation (A10): `exp(p1 + p2) / exp(loglikelihood)` with
`p1 = betaln(alpha+x, beta+T-x) - betaln(alpha,beta)` and
`p2 = betaln(gamma, delta+T+m) - betaln(gamma,delta)`. -/
noncomputable def BetaGeoBetaBinomFitter.conditional_probability_alive
    (p : BBParams) (m x tx T : ℕ) : ℝ :=
  Real.exp ((betaln (p.alpha + x) (p.beta + T - x) - betaln p.alpha p.beta)
      + (betaln p.gamma (p.delta + T + m) - betaln p.gamma p.delta))
    / Real.exp (BetaGeoBetaBinomFitter.loglikelihood p x tx T)

/-- Modelled from the spec, section 3 (Parameter Vector), covariate variant:
the shape `r` together with coefficient vectors for `alpha`, `a` and `b`. -/
structure BGCovarsParams where
  r : ℝ
  alpha0 : List ℝ
  a0 : List ℝ
  b0 : List ℝ

/-- Euclidean dot product of two coefficient/covariate lists. -/
def dotProduct (v w : List ℝ) : ℝ :=
  (List.zipWith (fun x y => x * y) v w).sum

/-- Modelled from the spec, section 4.2, covariate variant: covariates enter
the latent parameters through the exponential (log-linear) link, giving
per-subject effective BG/NBD parameters
`(r, exp⟨alpha0, X_tr⟩, exp⟨a0, X_do⟩, exp⟨b0, X_do⟩)`. -/
noncomputable def BetaGeoCovarsFitter.effective_params
    (p : BGCovarsParams) (X_tr X_do : List ℝ) : BGParams :=
  ⟨p.r, Real.exp (dotProduct p.alpha0 X_tr), Real.exp (dotProduct p.a0 X_do),
    Real.exp (dotProduct p.b0 X_do)⟩

/-- Modelled from the spec, section 4.2, covariate variant: the covariate
fitter's conditional probability of being alive is the BG/NBD formula
evaluated at the covariate-adjusted effective parameters. -/
noncomputable def BetaGeoCovarsFitter.conditional_probability_alive
    (p : BGCovarsParams) (frequency recency T : ℝ) (X_tr X_do : List ℝ) : ℝ :=
  BetaGeoFitter.conditional_probability_alive
    (BetaGeoCovarsFitter.effective_params p X_tr X_do) frequency recency T

